import Mathlib

/-!
# A verification model of `treesed.py`

This file embeds the `treesed` recursive search-and-replace engine
(`src/py/treesed.py`) in Lean and proves the specified properties of its
pattern compilation, per-line match counting, backup/restore behaviour and
file collection.

The engine delegates matching to Python's `re` module, which is not part of
the repository.  The fragment of `re` that `treesed` exercises is modelled
here from the documented semantics of `re`: `re.escape`, compilation of a
pattern subset (literal characters, escaped characters, `.`, `^`, `$`,
`*`, `+`, `?`, `|` and numbered capturing groups), `Pattern.search`,
`Pattern.subn` and replacement-template expansion.  Character case folding
for `re.IGNORECASE` is modelled as simple lowercasing, and text decoding /
newline translation of Python file objects is not modelled: file contents
are plain strings.

File-system effects are modelled explicitly: the store is an association
list from paths to contents, writes consult an oracle of outcomes so that
I/O failures can be expressed, and every read and write is recorded in an
event trace whose order mirrors the order of the corresponding Python
statements.
-/

set_option maxHeartbeats 1000000

namespace TreeSedModel

/-- Case folding used to model `re.IGNORECASE` matching (modelled as
one-to-one lowercasing). -/
def fold (ci : Bool) (c : Char) : Char := if ci then c.toLower else c

/-- Character comparison used by the matcher: exact, or case-folded when
`ci` (ignore-case) is set. -/
def ceq (ci : Bool) (a b : Char) : Bool := fold ci a == fold ci b

/-- Abstract syntax of the modelled fragment of Python regular
expressions. -/
inductive Regex where
  | eps
  | lit (c : Char)
  | dot
  | bol
  | eol
  | cat (a b : Regex)
  | alt (a b : Regex)
  | star (a : Regex)
  | grp (n : Nat) (a : Regex)
deriving Repr, DecidableEq

/-- Size of a regex, used to bound the fuel of the backtracking matcher. -/
def rsize : Regex → Nat
  | .eps => 1
  | .lit _ => 1
  | .dot => 1
  | .bol => 1
  | .eol => 1
  | .cat a b => rsize a + rsize b + 1
  | .alt a b => rsize a + rsize b + 1
  | .star a => rsize a + 1
  | .grp _ a => rsize a + 1

/-- Capture data of one match attempt: group index together with start and
end positions, most recent capture first. -/
abbrev Caps := List (Nat × Nat × Nat)

/-- Backtracking matcher, modelling Python `re` matching of the pattern at
a fixed position of the subject: `mrun ci s fuel r i caps` returns the
possible `(end position, captures)` pairs in backtracking priority order
(the head is the result Python commits to).  `.star` is greedy and only
repeats a body that consumed at least one character.  Fuel decreases on
every recursive call; callers pass enough fuel for the search to be
exhaustive. -/
def mrun (ci : Bool) (s : List Char) : Nat → Regex → Nat → Caps → List (Nat × Caps)
  | 0, _, _, _ => []
  | fuel + 1, r, i, caps =>
    match r with
    | .eps => [(i, caps)]
    | .lit c =>
      match s.drop i with
      | c2 :: _ => if ceq ci c c2 then [(i + 1, caps)] else []
      | [] => []
    | .dot =>
      match s.drop i with
      | c2 :: _ => if c2 = '\n' then [] else [(i + 1, caps)]
      | [] => []
    | .bol => if i = 0 then [(i, caps)] else []
    | .eol => if i = s.length ∨ s.drop i = ['\n'] then [(i, caps)] else []
    | .cat a b =>
      (mrun ci s fuel a i caps).flatMap (fun p => mrun ci s fuel b p.1 p.2)
    | .alt a b => mrun ci s fuel a i caps ++ mrun ci s fuel b i caps
    | .star a =>
      (((mrun ci s fuel a i caps).filter (fun p => i < p.1)).flatMap
        (fun p => mrun ci s fuel (.star a) p.1 p.2)) ++ [(i, caps)]
    | .grp n a =>
      (mrun ci s fuel a i caps).map (fun p => (p.1, (n, i, p.1) :: p.2))

/-- Fuel that is always sufficient for `mrun` on subject `s`. -/
def matchFuel (r : Regex) (s : List Char) : Nat :=
  (s.length + 1) * (rsize r + 1)

/-- Scan loop of `Pattern.search`: try to match at `j`, `j + 1`, … until a
position matches or the subject is exhausted; `k` counts the remaining
candidate positions.  Returns `(start, end, captures)` of the leftmost
match. -/
def scanGo (ci : Bool) (r : Regex) (s : List Char) : Nat → Nat → Option (Nat × Nat × Caps)
  | 0, _ => none
  | k + 1, j =>
    match (mrun ci s (matchFuel r s) r j []).head? with
    | some (e, caps) => some (j, e, caps)
    | none => scanGo ci r s k (j + 1)

/-- Python `Pattern.search` on `s` starting at position `j`. -/
def reSearchFrom (ci : Bool) (r : Regex) (s : List Char) (j : Nat) :
    Option (Nat × Nat × Caps) :=
  scanGo ci r s (s.length + 1 - j) j

/-- The token alphabet of the modelled pattern syntax. -/
inductive Tok where
  | lit (c : Char)
  | dot
  | caret
  | dollar
  | star
  | plus
  | ques
  | lpar
  | rpar
  | bar
deriving Repr, DecidableEq

/-- Tokenizer for the modelled pattern subset.  `\c` for non-alphanumeric
`c` is a literal `c`; escapes of alphanumeric characters (character
classes, anchors like `\b`, pattern back-references) and the unsupported
`[`, `]`, `{`, `}` syntax are outside the modelled fragment and are
rejected. -/
def tokenize : List Char → Option (List Tok)
  | [] => some []
  | c :: rest =>
    if c = '\\' then
      match rest with
      | [] => none
      | c2 :: rest2 =>
        if c2.isAlphanum then none
        else (tokenize rest2).map (fun ts => Tok.lit c2 :: ts)
    else if c = '.' then (tokenize rest).map (fun ts => Tok.dot :: ts)
    else if c = '^' then (tokenize rest).map (fun ts => Tok.caret :: ts)
    else if c = '$' then (tokenize rest).map (fun ts => Tok.dollar :: ts)
    else if c = '*' then (tokenize rest).map (fun ts => Tok.star :: ts)
    else if c = '+' then (tokenize rest).map (fun ts => Tok.plus :: ts)
    else if c = '?' then (tokenize rest).map (fun ts => Tok.ques :: ts)
    else if c = '(' then (tokenize rest).map (fun ts => Tok.lpar :: ts)
    else if c = ')' then (tokenize rest).map (fun ts => Tok.rpar :: ts)
    else if c = '|' then (tokenize rest).map (fun ts => Tok.bar :: ts)
    else if c = '[' ∨ c = ']' ∨ c = '{' ∨ c = '}' then none
    else (tokenize rest).map (fun ts => Tok.lit c :: ts)

/-- Turn a reversed atom sequence into the corresponding concatenation. -/
def finishSeq (seq : List Regex) : Regex := seq.reverse.foldr Regex.cat Regex.eps

/-- Right-nested alternation of a non-empty list of branches. -/
def altListR : List Regex → Regex
  | [] => Regex.eps
  | [r] => r
  | r :: rs => Regex.alt r (altListR rs)

/-- Combine the accumulated alternation branches (most recent first) with
the current atom sequence. -/
def finishAlts (alts seq : List Regex) : Regex :=
  altListR ((finishSeq seq :: alts).reverse)

/-- Stack-based construction of the regex from the token stream.  `g` is
the number of capturing groups opened so far (Python numbers groups by the
order of their opening parenthesis, starting at 1); each stack frame holds
the group number and the saved alternation/sequence accumulators of an
enclosing group. -/
def pgo : List Tok → Nat → List Regex → List Regex →
    List (Nat × List Regex × List Regex) → Option Regex
  | [], _, alts, seq, [] => some (finishAlts alts seq)
  | [], _, _, _, _ :: _ => none
  | t :: ts, g, alts, seq, stk =>
    match t with
    | .lit c => pgo ts g alts (Regex.lit c :: seq) stk
    | .dot => pgo ts g alts (Regex.dot :: seq) stk
    | .caret => pgo ts g alts (Regex.bol :: seq) stk
    | .dollar => pgo ts g alts (Regex.eol :: seq) stk
    | .star =>
      match seq with
      | [] => none
      | a :: rest => pgo ts g alts (Regex.star a :: rest) stk
    | .plus =>
      match seq with
      | [] => none
      | a :: rest => pgo ts g alts (Regex.cat a (Regex.star a) :: rest) stk
    | .ques =>
      match seq with
      | [] => none
      | a :: rest => pgo ts g alts (Regex.alt a Regex.eps :: rest) stk
    | .lpar => pgo ts (g + 1) [] [] ((g + 1, alts, seq) :: stk)
    | .rpar =>
      match stk with
      | [] => none
      | (gi, palts, pseq) :: stk2 =>
        pgo ts g palts (Regex.grp gi (finishAlts alts seq) :: pseq) stk2
    | .bar => pgo ts g (finishSeq seq :: alts) [] stk

/-- Parse a pattern string (as a character list) of the modelled subset. -/
def parseRe (cs : List Char) : Option Regex :=
  (tokenize cs).bind (fun ts => pgo ts 0 [] [] [])

/-- The characters escaped by Python `re.escape`. -/
def escSpecials : List Char :=
  ['(', ')', '[', ']', '{', '}', '?', '*', '+', '-', '|', '^', '$', '\\',
   '.', '&', '~', '#', ' ', '\t', '\n', '\r', '\x0b', '\x0c']

/-- `re.escape` on a single character. -/
def escapeChar (c : Char) : List Char :=
  if c ∈ escSpecials then ['\\', c] else [c]

/-- `re.escape` on a character list. -/
def escapeList (cs : List Char) : List Char := cs.flatMap escapeChar

/-- Python `re.escape`. -/
def reEscape (s : String) : String := ⟨escapeList s.data⟩

/-- A compiled pattern: the parsed regex together with the
`re.IGNORECASE` flag, mirroring `re.compile(pattern, flags)`. -/
structure CPat where
  re : Regex
  ignorecase : Bool
deriving Repr, DecidableEq

/-- Does the pattern match somewhere in the line (`pattern.search(line)`
used as a truth value)? -/
def lineMatches (cp : CPat) (l : List Char) : Bool :=
  (reSearchFrom cp.ignorecase cp.re l 0).isSome

/-- Configuration of the engine, mirroring the `TreeSed` class
(`case_sensitive`, `use_regex`). -/
structure TS where
  case_sensitive : Bool
  use_regex : Bool
deriving Repr, DecidableEq

/-- `TreeSed.compile_pattern`: escape the pattern unless `use_regex`, then
compile it with `IGNORECASE` unless `case_sensitive`.  `none` models a
`re.error` (never raised for escaped literal patterns). -/
def compile_pattern (ts : TS) (pattern : String) : Option CPat :=
  let p := if ts.use_regex then pattern else reEscape pattern
  (parseRe p.data).map (fun r => ⟨r, !ts.case_sensitive⟩)

/-- Group lookup in the captures of a match (most recent capture of the
group wins). -/
def capLookup (caps : Caps) (n : Nat) : Option (Nat × Nat) :=
  (caps.find? (fun e => e.1 == n)).map (fun e => e.2)

/-- The slice `s[a:b]` of a character list. -/
def slice (s : List Char) (a b : Nat) : List Char := (s.drop a).take (b - a)

/-- Numeric value of a decimal digit character. -/
def digitVal (c : Char) : Nat := c.toNat - '0'.toNat

/-- Expansion of a replacement template against a match, modelling Python
`re` template parsing: `\\` yields a backslash, `\n`/`\t`/`\r` yield the
control character, `\N` (one or two digits, no leading zero) is replaced
by the text of capture group `N` of the match (an error if the group did
not participate), escapes of other alphanumeric characters and octal
escapes are outside the modelled fragment, and unknown escapes of
non-alphanumeric characters are left alone.  `none` models an exception
escaping from `Pattern.subn`. -/
def expandGo (s : List Char) (caps : Caps) : Nat → List Char → Option (List Char)
  | 0, _ => none
  | _ + 1, [] => some []
  | fuel + 1, c :: rest =>
    if c = '\\' then
      match rest with
      | [] => none
      | c2 :: rest2 =>
        if c2 = '\\' then (expandGo s caps fuel rest2).map (fun t => '\\' :: t)
        else if c2 = 'n' then (expandGo s caps fuel rest2).map (fun t => '\n' :: t)
        else if c2 = 't' then (expandGo s caps fuel rest2).map (fun t => '\t' :: t)
        else if c2 = 'r' then (expandGo s caps fuel rest2).map (fun t => '\r' :: t)
        else if c2.isDigit ∧ c2 ≠ '0' then
          match rest2 with
          | d2 :: rest3 =>
            if d2.isDigit then
              match capLookup caps (digitVal c2 * 10 + digitVal d2) with
              | some (a, b) =>
                (expandGo s caps fuel rest3).map (fun t => slice s a b ++ t)
              | none => none
            else
              match capLookup caps (digitVal c2) with
              | some (a, b) =>
                (expandGo s caps fuel (d2 :: rest3)).map
                  (fun t => slice s a b ++ t)
              | none => none
          | [] =>
            match capLookup caps (digitVal c2) with
            | some (a, b) => some (slice s a b)
            | none => none
        else if c2.isAlphanum then none
        else (expandGo s caps fuel rest2).map (fun t => '\\' :: c2 :: t)
    else (expandGo s caps fuel rest).map (fun t => c :: t)

/-- Expansion of a replacement template against a match (see `expandGo`;
the fuel seed always suffices, one unit per template character consumed).
-/
def expandT (s : List Char) (caps : Caps) (t : List Char) :
    Option (List Char) :=
  expandGo s caps (t.length + 1) t

/-- `str.replace("\\", "\\\\")` on a character list: the backslash
doubling `replace_file` applies to the replacement text in literal
mode. -/
def doubleBS : List Char → List Char
  | [] => []
  | c :: rest =>
    if c = '\\' then '\\' :: '\\' :: doubleBS rest else c :: doubleBS rest

/-- Loop of `Pattern.subn(repl, line)`: repeatedly find the leftmost match
at or after `pos`, emit the text before it followed by the expanded
template, and continue behind the match (behind one extra copied character
after an empty match).  `k` bounds the number of iterations; callers seed
it so that it never runs out.  Returns the new text and the number of
substitutions, or `none` for a template-expansion error. -/
def subnGo (ci : Bool) (r : Regex) (tmpl : List Char) (s : List Char) :
    Nat → Nat → Option (List Char × Nat)
  | 0, _ => none
  | k + 1, pos =>
    match reSearchFrom ci r s pos with
    | none => some (s.drop pos, 0)
    | some (st, en, caps) =>
      (expandT s caps tmpl).bind (fun exp =>
        if st < en then
          (subnGo ci r tmpl s k en).map
            (fun p => (slice s pos st ++ exp ++ p.1, p.2 + 1))
        else
          (subnGo ci r tmpl s k (st + 1)).map
            (fun p =>
              (slice s pos st ++ exp ++ (s.drop st).take 1 ++ p.1, p.2 + 1)))

/-- `Pattern.subn(repl, line)` on one line. -/
def subnLine (ci : Bool) (r : Regex) (tmpl s : List Char) :
    Option (List Char × Nat) :=
  subnGo ci r tmpl s (s.length + 2) 0

/-- Split a text into lines the way `readlines` does: each line keeps its
trailing newline; a final fragment without a newline is its own line. -/
def splitLinesAux : List Char → List Char → List (List Char)
  | [], acc => if acc.isEmpty then [] else [acc.reverse]
  | c :: rest, acc =>
    if c = '\n' then (acc.reverse ++ ['\n']) :: splitLinesAux rest []
    else splitLinesAux rest (c :: acc)

/-- `readlines` of a file content. -/
def splitLines (cs : List Char) : List (List Char) := splitLinesAux cs []

/-- The per-line substitution pass of `replace_file`: apply `subn` to every
line, returning the new lines and the number of lines on which at least
one substitution was performed. -/
def subAllLines (ci : Bool) (r : Regex) (tmpl : List Char) :
    List (List Char) → Option (List (List Char) × Nat)
  | [] => some ([], 0)
  | l :: ls =>
    (subnLine ci r tmpl l).bind (fun p =>
      (subAllLines ci r tmpl ls).map (fun q =>
        (p.1 :: q.1, q.2 + (if 0 < p.2 then 1 else 0))))

/-- Result of searching a single file (dataclass `FileMatches`). -/
structure FileMatches where
  path : String
  count : Nat
  line_numbers : List Nat
deriving Repr, DecidableEq

/-- Result of replacing in a single file (dataclass `FileReplacement`). -/
structure FileReplacement where
  path : String
  count : Nat
  backup_path : Option String
deriving Repr, DecidableEq

/-- Look a path up in the store of regular files. -/
def fsGet (fs : List (String × String)) (p : String) : Option String :=
  (fs.find? (fun e => e.1 == p)).map (fun e => e.2)

/-- Write a path in the store (overwrite or create). -/
def fsSet (fs : List (String × String)) (p c : String) : List (String × String) :=
  match fs with
  | [] => [(p, c)]
  | e :: rest => if e.1 == p then (p, c) :: rest else e :: fsSet rest p c

/-- World state of a run: the file store and an oracle giving the outcome
of each successive write attempt (an exhausted oracle means writes
succeed). -/
structure St where
  fs : List (String × String)
  oracle : List Bool
deriving Repr, DecidableEq

/-- One I/O event, in program order: a read returning the content found
(or `none` when the file cannot be opened), or a write attempt of a
content with its outcome. -/
inductive Ev where
  | readF (path : String) (content : Option String)
  | writeF (path : String) (content : String) (ok : Bool)
deriving Repr, DecidableEq

/-- Attempt to write `c` at `p`: the next oracle entry decides success; a
failed attempt leaves the store unchanged. -/
def tryWrite (st : St) (p c : String) : Bool × St × Ev :=
  match st.oracle with
  | [] => (true, ⟨fsSet st.fs p c, []⟩, .writeF p c true)
  | b :: rest =>
    (b, ⟨if b then fsSet st.fs p c else st.fs, rest⟩, .writeF p c b)

/-- `TreeSed.search_file`: read the file, collect the 1-based numbers of
the lines the pattern matches, and return a `FileMatches` when there are
any. -/
def matchingLineNumbers (cp : CPat) : List (List Char) → Nat → List Nat
  | [], _ => []
  | l :: ls, i =>
    if lineMatches cp l then i :: matchingLineNumbers cp ls (i + 1)
    else matchingLineNumbers cp ls (i + 1)

/-- `TreeSed.search_file` over the modelled store.  A file that cannot be
read is skipped silently (`none`), exactly like a file without matches. -/
def search_file (cp : CPat) (fs : List (String × String)) (path : String) :
    Option FileMatches :=
  match fsGet fs path with
  | none => none
  | some content =>
    let nums := matchingLineNumbers cp (splitLines content.data) 1
    if nums.isEmpty then none else some ⟨path, nums.length, nums⟩

/-- The file loop of `TreeSed.search`. -/
def searchGo (cp : CPat) (fs : List (String × String)) :
    List String → List FileMatches
  | [] => []
  | f :: rest =>
    match search_file cp fs f with
    | none => searchGo cp fs rest
    | some m => m :: searchGo cp fs rest

/-- `TreeSed.search`: compile the pattern, then search the files in the
order given.  `none` models a pattern-compilation error escaping to the
caller. -/
def search (ts : TS) (pattern : String) (files : List String)
    (fs : List (String × String)) : Option (List FileMatches) :=
  (compile_pattern ts pattern).map (fun cp => searchGo cp fs files)

/-- Concatenate lines back into a file content (`f.writelines`). -/
def joinLines (ls : List (List Char)) : String := ⟨ls.flatten⟩

/-- `TreeSed.replace_file`: read the file, double the backslashes of the
replacement in literal mode, substitute on every line, and when at least
one line changed write a backup (original name plus `.` plus the process
id) if requested and then overwrite the file; a failed overwrite after a
successful backup rewrites the original in-memory lines.  The result is
`.error` when an exception other than the caught `OSError`/`IOError`
escapes (a template-expansion error, or a failure of the uncaught restore
write), otherwise the optional `FileReplacement` outcome together with the
final state and the trace of I/O events in program order. -/
def replace_file (ts : TS) (cp : CPat) (replacement : String) (path : String)
    (backup : Bool) (pid : Nat) (st : St) :
    Except Unit (Option FileReplacement) × St × List Ev :=
  match fsGet st.fs path with
  | none => (.ok none, st, [.readF path none])
  | some content =>
    let original_lines := splitLines content.data
    let repl := if ts.use_regex then replacement.data else doubleBS replacement.data
    match subAllLines cp.ignorecase cp.re repl original_lines with
    | none => (.error (), st, [.readF path (some content)])
    | some (new_lines, lines_changed) =>
      if lines_changed = 0 then (.ok none, st, [.readF path (some content)])
      else
        let newContent := joinLines new_lines
        if backup then
          let bpath := path ++ "." ++ toString pid
          let w1 := tryWrite st bpath (joinLines original_lines)
          if w1.1 = false then
            (.ok none, w1.2.1, [.readF path (some content), w1.2.2])
          else
            let w2 := tryWrite w1.2.1 path newContent
            if w2.1 then
              (.ok (some ⟨path, lines_changed, some bpath⟩), w2.2.1,
                [.readF path (some content), w1.2.2, w2.2.2])
            else
              if (fsGet w2.2.1.fs bpath).isSome then
                let w3 := tryWrite w2.2.1 path (joinLines original_lines)
                if w3.1 then
                  (.ok none, w3.2.1,
                    [.readF path (some content), w1.2.2, w2.2.2, w3.2.2])
                else
                  (.error (), w3.2.1,
                    [.readF path (some content), w1.2.2, w2.2.2, w3.2.2])
              else
                (.ok none, w2.2.1, [.readF path (some content), w1.2.2, w2.2.2])
        else
          let w2 := tryWrite st path newContent
          if w2.1 then
            (.ok (some ⟨path, lines_changed, none⟩), w2.2.1,
              [.readF path (some content), w2.2.2])
          else
            (.ok none, w2.2.1, [.readF path (some content), w2.2.2])

/-- The file loop of `TreeSed.replace`, threading the world state and
collecting the per-file results and traces in order. -/
def replaceGo (ts : TS) (cp : CPat) (replacement : String) (backup : Bool)
    (pid : Nat) : List String → St →
    Except Unit (List FileReplacement × St × List Ev)
  | [], st => .ok ([], st, [])
  | f :: rest, st =>
    match replace_file ts cp replacement f backup pid st with
    | (.error _, _, _) => .error ()
    | (.ok res, st1, tr) =>
      match replaceGo ts cp replacement backup pid rest st1 with
      | .error _ => .error ()
      | .ok (rs, st2, tr2) =>
        .ok ((match res with | none => rs | some r => r :: rs), st2, tr ++ tr2)

/-- `TreeSed.replace`: compile the pattern, then process the files in the
order given. -/
def replace (ts : TS) (pattern replacement : String) (files : List String)
    (backup : Bool) (pid : Nat) (st : St) :
    Except Unit (List FileReplacement × St × List Ev) :=
  match compile_pattern ts pattern with
  | none => .error ()
  | some cp => replaceGo ts cp replacement backup pid files st

/-- The directory side of the store, for the collection helpers: the
regular files with their contents, plus the directory paths. -/
structure FsWorld where
  files : List (String × String)
  dirs : List String
deriving Repr, DecidableEq

/-- `Path.is_file` over the modelled world. -/
def isRegularFile (w : FsWorld) (p : String) : Bool :=
  (fsGet w.files p).isSome

/-- `root.rglob("*")`: every entry (file or directory) whose path lies
strictly under `root`.  Paths are modelled as already-normalised strings,
and "lies under" as extending `root ++ "/"`. -/
def rglob (w : FsWorld) (root : String) : List String :=
  ((w.files.map Prod.fst) ++ w.dirs).filter
    (fun p => (root ++ "/").isPrefixOf p)

/-- `TreeSed.collect_tree`: the regular files under `root`, sorted. -/
def collect_tree (w : FsWorld) (root : String) : List String :=
  List.insertionSort (fun a b => a ≤ b) ((rglob w root).filter (isRegularFile w))

/-- `TreeSed.collect_files`: the given paths that are regular files, in
the given order. -/
def collect_files (w : FsWorld) (paths : List String) : List String :=
  paths.filter (isRegularFile w)

/-- The regex a literal (escaped) pattern compiles to: the concatenation
of its characters. -/
def litSeq (cs : List Char) : Regex :=
  (cs.map Regex.lit).foldr Regex.cat Regex.eps

/-- Modelled from the spec: the substitution loop with the replacement
text inserted literally at every match, the behaviour §4.3 prescribes for
literal mode (sequences such as a backslash followed by `n` or `1` in the
replacement appear verbatim and are never interpreted).  Compared below
with the code's behaviour of doubling backslashes before template
expansion. -/
def subnLitGo (ci : Bool) (r : Regex) (rep : List Char) (s : List Char) :
    Nat → Nat → Option (List Char × Nat)
  | 0, _ => none
  | k + 1, pos =>
    match reSearchFrom ci r s pos with
    | none => some (s.drop pos, 0)
    | some (st, en, _) =>
      if st < en then
        (subnLitGo ci r rep s k en).map
          (fun p => (slice s pos st ++ rep ++ p.1, p.2 + 1))
      else
        (subnLitGo ci r rep s k (st + 1)).map
          (fun p => (slice s pos st ++ rep ++ (s.drop st).take 1 ++ p.1, p.2 + 1))

/-! ### Helper lemmas: list containment -/

theorem pfx_nil (l : List α) : [] <+: l := ⟨l, rfl⟩

theorem pfx_nil_right {l : List α} : l <+: ([] : List α) ↔ l = [] := by
  constructor
  · rintro ⟨t, ht⟩
    cases l with
    | nil => rfl
    | cons a l => simp at ht
  · rintro rfl
    exact pfx_nil []

theorem pfx_cons_iff {a b : α} {l1 l2 : List α} :
    (a :: l1) <+: (b :: l2) ↔ a = b ∧ l1 <+: l2 := by
  constructor
  · rintro ⟨t, ht⟩
    simp only [List.cons_append, List.cons.injEq] at ht
    exact ⟨ht.1, t, ht.2⟩
  · rintro ⟨rfl, t, ht⟩
    exact ⟨t, by simp [ht]⟩

theorem infix_iff_pfx_drop {l1 l2 : List α} :
    l1 <:+: l2 ↔ ∃ k, l1 <+: l2.drop k := by
  constructor
  · rintro ⟨u, v, huv⟩
    refine ⟨u.length, v, ?_⟩
    have : l2.drop u.length = l1 ++ v := by
      rw [← huv, List.append_assoc, List.drop_left]
    rw [this]
  · rintro ⟨k, t, ht⟩
    exact ⟨l2.take k, t, by rw [List.append_assoc, ht, List.take_append_drop]⟩

theorem drop_succ_of_drop_cons {s : List Char} {i : Nat} {c : Char}
    {t : List Char} (h : s.drop i = c :: t) : s.drop (i + 1) = t := by
  have h1 : s.drop (i + 1) = (s.drop i).drop 1 := by
    rw [List.drop_drop, Nat.add_comm]
  rw [h1, h, List.drop_one, List.tail_cons]

theorem head_isSome_iff_ne_nil {l : List (Nat × Caps)} :
    l.head?.isSome = true ↔ l ≠ [] := by
  cases l <;> simp

/-! ### The compiled form of an escaped literal pattern -/

theorem escSpecials_not_alphanum : ∀ c ∈ escSpecials, c.isAlphanum = false := by
  decide

theorem tokenize_cons_escaped (c : Char) (rest : List Char)
    (hna : c.isAlphanum = false) :
    tokenize ('\\' :: c :: rest) =
      (tokenize rest).map (fun ts => Tok.lit c :: ts) := by
  rw [tokenize.eq_def]
  simp [hna]

theorem tokenize_cons_plain (c : Char) (rest : List Char)
    (hc : c ∉ escSpecials) :
    tokenize (c :: rest) = (tokenize rest).map (fun ts => Tok.lit c :: ts) := by
  have hne : ∀ d ∈ escSpecials, ¬ c = d := fun d hd he => hc (he ▸ hd)
  rw [tokenize.eq_def]
  dsimp only
  rw [if_neg (hne '\\' (by decide)), if_neg (hne '.' (by decide)),
    if_neg (hne '^' (by decide)), if_neg (hne '$' (by decide)),
    if_neg (hne '*' (by decide)), if_neg (hne '+' (by decide)),
    if_neg (hne '?' (by decide)), if_neg (hne '(' (by decide)),
    if_neg (hne ')' (by decide)), if_neg (hne '|' (by decide)),
    if_neg ?hbrk]
  case hbrk =>
    push_neg
    exact ⟨hne '[' (by decide), hne ']' (by decide), hne '{' (by decide),
      hne '}' (by decide)⟩

theorem tokenize_escape : ∀ cs : List Char,
    tokenize (escapeList cs) = some (cs.map Tok.lit)
  | [] => rfl
  | c :: cs => by
    have htail : tokenize (escapeList cs) = some (cs.map Tok.lit) :=
      tokenize_escape cs
    by_cases hc : c ∈ escSpecials
    · have hna : c.isAlphanum = false := escSpecials_not_alphanum c hc
      have hshape : escapeList (c :: cs) = '\\' :: c :: escapeList cs := by
        simp [escapeList, escapeChar, if_pos hc]
      rw [hshape, tokenize_cons_escaped c _ hna, htail]
      rfl
    · have hshape : escapeList (c :: cs) = c :: escapeList cs := by
        simp [escapeList, escapeChar, if_neg hc]
      rw [hshape, tokenize_cons_plain c _ hc, htail]
      rfl

theorem pgo_lits : ∀ (cs : List Char) (g : Nat) (alts seq : List Regex),
    pgo (cs.map Tok.lit) g alts seq [] =
      some (finishAlts alts ((cs.map Regex.lit).reverse ++ seq))
  | [], g, alts, seq => by simp [pgo]
  | c :: cs, g, alts, seq => by
    simp only [List.map_cons, pgo, pgo_lits cs g alts (Regex.lit c :: seq)]
    rw [List.reverse_cons, List.append_assoc, List.singleton_append]

theorem parseRe_escape (cs : List Char) :
    parseRe (escapeList cs) = some (litSeq cs) := by
  rw [parseRe, tokenize_escape cs]
  show pgo (cs.map Tok.lit) 0 [] [] [] = some (litSeq cs)
  rw [pgo_lits cs 0 [] []]
  simp [finishAlts, altListR, finishSeq, litSeq, List.reverse_reverse]

theorem compile_pattern_literal (ts : TS) (p : String)
    (hlit : ts.use_regex = false) :
    compile_pattern ts p = some ⟨litSeq p.data, !ts.case_sensitive⟩ := by
  simp [compile_pattern, hlit, reEscape, parseRe_escape]

/-! ### Matching a literal sequence is containment -/

theorem ceq_iff_fold {ci : Bool} {a b : Char} :
    ceq ci a b = true ↔ fold ci a = fold ci b := by
  simp [ceq]

theorem mrun_eps (ci : Bool) (s : List Char) (fuel i : Nat) (caps : Caps) :
    mrun ci s (fuel + 1) Regex.eps i caps = [(i, caps)] := by
  simp [mrun]

theorem mrun_lit (ci : Bool) (s : List Char) (fuel i : Nat) (caps : Caps)
    (c : Char) :
    mrun ci s (fuel + 1) (Regex.lit c) i caps =
      match s.drop i with
      | c2 :: _ => if ceq ci c c2 then [(i + 1, caps)] else []
      | [] => [] := by
  simp [mrun]

theorem mrun_cat (ci : Bool) (s : List Char) (fuel i : Nat) (caps : Caps)
    (a b : Regex) :
    mrun ci s (fuel + 1) (Regex.cat a b) i caps =
      (mrun ci s fuel a i caps).flatMap (fun p => mrun ci s fuel b p.1 p.2) := by
  simp [mrun]

theorem mrun_litSeq (ci : Bool) (s : List Char) (cs : List Char) :
    ∀ (fuel i : Nat) (caps : Caps), cs.length < fuel →
    mrun ci s fuel (litSeq cs) i caps =
      if (cs.map (fold ci)) <+: ((s.drop i).map (fold ci))
      then [(i + cs.length, caps)] else [] := by
  induction cs with
  | nil =>
    intro fuel i caps h
    obtain ⟨f, rfl⟩ : ∃ f, fuel = f + 1 := ⟨fuel - 1, by omega⟩
    simp [litSeq, mrun, pfx_nil]
  | cons c cs ih =>
    intro fuel i caps h
    obtain ⟨f, rfl⟩ : ∃ f, fuel = f + 1 := ⟨fuel - 1, by omega⟩
    have hf : cs.length < f := by simpa using h
    obtain ⟨f2, rfl⟩ : ∃ f2, f = f2 + 1 := ⟨f - 1, by omega⟩
    have hseq : litSeq (c :: cs) = Regex.cat (Regex.lit c) (litSeq cs) := rfl
    rw [hseq, mrun_cat]
    cases hd : s.drop i with
    | nil =>
      have hlit : (mrun ci s (f2 + 1) (Regex.lit c) i caps) = [] := by
        rw [mrun_lit, hd]
      rw [hlit]
      simp
    | cons c2 t =>
      have hdrop : s.drop (i + 1) = t := drop_succ_of_drop_cons hd
      by_cases hc : ceq ci c c2 = true
      · have hlit : (mrun ci s (f2 + 1) (Regex.lit c) i caps) = [(i + 1, caps)] := by
          rw [mrun_lit, hd]
          simp [hc]
        rw [hlit]
        simp only [List.flatMap_cons, List.flatMap_nil, List.append_nil]
        rw [ih (f2 + 1) (i + 1) caps hf, hdrop]
        have hfc : fold ci c = fold ci c2 := ceq_iff_fold.mp hc
        simp only [List.map_cons, pfx_cons_iff, hfc, true_and]
        split <;> (simp; try omega)
      · have hlit : (mrun ci s (f2 + 1) (Regex.lit c) i caps) = [] := by
          rw [mrun_lit, hd]
          simp [hc]
        rw [hlit]
        have hfc : ¬ fold ci c = fold ci c2 := fun he => hc (ceq_iff_fold.mpr he)
        simp [pfx_cons_iff, hfc]

theorem rsize_litSeq (cs : List Char) : rsize (litSeq cs) = 2 * cs.length + 1 := by
  induction cs with
  | nil => rfl
  | cons c cs ih =>
    show rsize (Regex.cat (Regex.lit c) (litSeq cs)) = _
    simp [rsize, ih]
    omega

theorem length_lt_matchFuel (cs s : List Char) :
    cs.length < matchFuel (litSeq cs) s := by
  have h := rsize_litSeq cs
  simp only [matchFuel, h]
  nlinarith [s.length.zero_le]

theorem scanGo_isSome (ci : Bool) (r : Regex) (s : List Char) :
    ∀ (k j : Nat), (scanGo ci r s k j).isSome = true ↔
      ∃ m, m < k ∧ mrun ci s (matchFuel r s) r (j + m) [] ≠ []
  | 0, j => by simp [scanGo]
  | k + 1, j => by
    rw [scanGo]
    cases hh : (mrun ci s (matchFuel r s) r j []).head? with
    | some p =>
      simp only [Option.isSome_some, true_iff]
      refine ⟨0, by omega, ?_⟩
      rw [Nat.add_zero]
      intro he
      rw [he] at hh
      simp at hh
    | none =>
      have hempty : mrun ci s (matchFuel r s) r j [] = [] := by
        cases hm : mrun ci s (matchFuel r s) r j [] with
        | nil => rfl
        | cons a l => rw [hm] at hh; simp at hh
      rw [scanGo_isSome ci r s k (j + 1)]
      constructor
      · rintro ⟨m, hm, hne⟩
        exact ⟨m + 1, by omega, by
          have : j + 1 + m = j + (m + 1) := by omega
          rwa [this] at hne⟩
      · rintro ⟨m, hm, hne⟩
        cases m with
        | zero => exact absurd hempty (by simpa using hne)
        | succ m =>
          exact ⟨m, by omega, by
            have : j + (m + 1) = j + 1 + m := by omega
            rwa [this] at hne⟩

theorem lineMatches_litSeq (ci : Bool) (p s : List Char) :
    lineMatches ⟨litSeq p, ci⟩ s = true ↔
      (p.map (fold ci)) <:+: (s.map (fold ci)) := by
  rw [lineMatches, reSearchFrom]
  simp only [Nat.sub_zero]
  rw [scanGo_isSome]
  have hmr : ∀ m, mrun ci s (matchFuel (litSeq p) s) (litSeq p) m [] ≠ [] ↔
      (p.map (fold ci)) <+: ((s.drop m).map (fold ci)) := by
    intro m
    rw [mrun_litSeq ci s p _ m [] (length_lt_matchFuel p s)]
    split <;> simp_all
  constructor
  · rintro ⟨m, _, hne⟩
    rw [Nat.zero_add] at hne
    rw [infix_iff_pfx_drop]
    refine ⟨m, ?_⟩
    have hp := (hmr m).mp hne
    rwa [List.map_drop] at hp
  · intro hinf
    obtain ⟨k, hk⟩ := infix_iff_pfx_drop.mp hinf
    rw [← List.map_drop] at hk
    by_cases hlen : k ≤ s.length
    · refine ⟨k, by omega, ?_⟩
      rw [Nat.zero_add]
      exact (hmr k).mpr hk
    · have hnil : s.drop k = [] := List.drop_eq_nil_iff.mpr (by omega)
      rw [hnil] at hk
      have hp : p.map (fold ci) = [] := by simpa using pfx_nil_right.mp hk
      refine ⟨s.length, by omega, ?_⟩
      rw [Nat.zero_add]
      refine (hmr s.length).mpr ?_
      rw [List.drop_length]
      simp [hp, pfx_nil]

/-! ### C1: literal patterns match exactly themselves -/

/-- C1: a pattern compiled with `use_regex = false` matches a line exactly
when the line contains the raw pattern string verbatim (up to case
folding when matching is case-insensitive); every regex metacharacter is
neutralised by the escaping step. -/
theorem c1_literal_pattern_matches_exact_substring (ts : TS) (p line : String)
    (hlit : ts.use_regex = false) :
    ∃ cp, compile_pattern ts p = some cp ∧
      (lineMatches cp line.data = true ↔
        (p.data.map (fold (!ts.case_sensitive))) <:+:
          (line.data.map (fold (!ts.case_sensitive)))) :=
  ⟨⟨litSeq p.data, !ts.case_sensitive⟩, compile_pattern_literal ts p hlit,
    lineMatches_litSeq (!ts.case_sensitive) p.data line.data⟩

/-- Witness for C1 at the spec's example: the literal pattern `$10.00`
(metacharacters `$` and `.`) against a line containing it verbatim. -/
theorem c1_witness :
    (TS.mk false false).use_regex = false ∧
      (∃ cp, compile_pattern ⟨false, false⟩ "$10.00" = some cp ∧
        (lineMatches cp "price $10.00 today".data = true ↔
          ("$10.00".data.map (fold (!(false : Bool)))) <:+:
            ("price $10.00 today".data.map (fold (!(false : Bool)))))) :=
  ⟨rfl, c1_literal_pattern_matches_exact_substring ⟨false, false⟩
    "$10.00" "price $10.00 today" rfl⟩

/-! ### C8: the empty pattern compiles and matches everywhere -/

theorem compile_pattern_empty (ts : TS) :
    compile_pattern ts "" = some ⟨Regex.eps, !ts.case_sensitive⟩ := by
  cases hcs : ts.case_sensitive <;> cases hreg : ts.use_regex <;>
    simp [compile_pattern, hcs, hreg, reEscape, escapeList, parseRe,
      tokenize, pgo, finishAlts, finishSeq, altListR]

theorem lineMatches_eps (ci : Bool) (l : List Char) :
    lineMatches ⟨Regex.eps, ci⟩ l = true := by
  obtain ⟨f, hf⟩ : ∃ f, matchFuel Regex.eps l = f + 1 :=
    ⟨2 * l.length + 1, by simp [matchFuel, rsize]; ring⟩
  have hm : mrun ci l (matchFuel Regex.eps l) Regex.eps 0 [] = [(0, [])] := by
    rw [hf]
    exact mrun_eps ci l f 0 []
  rw [lineMatches, reSearchFrom]
  simp only [Nat.sub_zero]
  rw [scanGo, hm]
  simp

theorem matchingLineNumbers_all (cp : CPat)
    (hall : ∀ l, lineMatches cp l = true) :
    ∀ (ls : List (List Char)) (i : Nat),
      matchingLineNumbers cp ls i = List.range' i ls.length
  | [], i => by simp [matchingLineNumbers]
  | l :: ls, i => by
    rw [matchingLineNumbers, if_pos (hall l), matchingLineNumbers_all cp hall ls (i + 1)]
    simp [List.range'_succ]

/-- C8: pattern compilation never fails on the empty pattern (no exception
is raised), the empty literal pattern matches every line, and searching a
readable file with it reports every line number of the file. -/
theorem c8_empty_pattern_matches_everywhere (ts : TS)
    (fs : List (String × String)) (path content : String)
    (hread : fsGet fs path = some content) :
    ∃ cp, compile_pattern ts "" = some cp ∧
      (∀ l, lineMatches cp l = true) ∧
      search_file cp fs path =
        (if (splitLines content.data).length = 0 then none
         else some ⟨path, (splitLines content.data).length,
           List.range' 1 (splitLines content.data).length⟩) := by
  refine ⟨⟨Regex.eps, !ts.case_sensitive⟩, compile_pattern_empty ts,
    lineMatches_eps _, ?_⟩
  rw [search_file, hread]
  dsimp only
  rw [matchingLineNumbers_all _ (lineMatches_eps _) (splitLines content.data) 1]
  rcases hn : (splitLines content.data).length with _ | n
  · simp [hn]
  · simp [hn, List.range']

/-- Witness for C8: the empty pattern on a two-line file reports lines 1
and 2. -/
theorem c8_witness :
    fsGet [("f", "ab\ncd\n")] "f" = some "ab\ncd\n" ∧
      ∃ cp, compile_pattern ⟨false, false⟩ "" = some cp ∧
        (∀ l, lineMatches cp l = true) ∧
        search_file cp [("f", "ab\ncd\n")] "f" =
          (if (splitLines "ab\ncd\n".data).length = 0 then none
           else some ⟨"f", (splitLines "ab\ncd\n".data).length,
             List.range' 1 (splitLines "ab\ncd\n".data).length⟩) :=
  ⟨rfl, c8_empty_pattern_matches_everywhere ⟨false, false⟩ _ "f" "ab\ncd\n" rfl⟩

/-! ### C2: iteration order and line-granular counting -/

theorem matchingLineNumbers_length (cp : CPat) :
    ∀ (ls : List (List Char)) (i : Nat),
      (matchingLineNumbers cp ls i).length =
        ls.countP (fun l => lineMatches cp l)
  | [], _ => by simp [matchingLineNumbers]
  | l :: ls, i => by
    rw [matchingLineNumbers]
    by_cases hm : lineMatches cp l = true <;>
      simp [hm, List.countP_cons, matchingLineNumbers_length cp ls (i + 1)]

theorem search_file_shape (cp : CPat) (fs : List (String × String))
    (path : String) (m : FileMatches)
    (h : search_file cp fs path = some m) :
    m.path = path ∧
    ∃ content, fsGet fs path = some content ∧
      m.count = (splitLines content.data).countP (fun l => lineMatches cp l) ∧
      m.line_numbers =
        matchingLineNumbers cp (splitLines content.data) 1 := by
  rw [search_file] at h
  cases hget : fsGet fs path with
  | none => rw [hget] at h; simp at h
  | some content =>
    rw [hget] at h
    dsimp only at h
    by_cases hemp :
        (matchingLineNumbers cp (splitLines content.data) 1).isEmpty = true
    · rw [if_pos hemp] at h; simp at h
    · rw [if_neg hemp] at h
      obtain rfl := (Option.some_inj.mp h).symm
      exact ⟨rfl, content, rfl,
        matchingLineNumbers_length cp (splitLines content.data) 1, rfl⟩

theorem searchGo_eq_filterMap (cp : CPat) (fs : List (String × String)) :
    ∀ files : List String,
      searchGo cp fs files = files.filterMap (search_file cp fs)
  | [] => by simp [searchGo]
  | f :: rest => by
    rw [searchGo.eq_def]
    cases h : search_file cp fs f <;>
      simp [h, searchGo_eq_filterMap cp fs rest]

theorem subnGo_count_pos (ci : Bool) (r : Regex) (tmpl s : List Char) :
    ∀ (k pos : Nat) (out : List Char) (n : Nat),
      subnGo ci r tmpl s k pos = some (out, n) →
      (0 < n ↔ (reSearchFrom ci r s pos).isSome = true)
  | 0, pos, out, n, h => by simp [subnGo] at h
  | k + 1, pos, out, n, h => by
    rw [subnGo] at h
    cases hscan : reSearchFrom ci r s pos with
    | none =>
      rw [hscan] at h
      simp only [Option.some_inj, Prod.mk.injEq] at h
      simp [hscan, ← h.2]
    | some sec =>
      obtain ⟨st, en, caps⟩ := sec
      rw [hscan] at h
      obtain ⟨exp, -, hif⟩ := Option.bind_eq_some.mp h
      have hpos : 0 < n := by
        by_cases hlt : st < en
        · rw [if_pos hlt] at hif
          obtain ⟨p, -, hp⟩ := Option.map_eq_some'.mp hif
          have h2 := congrArg Prod.snd hp
          simp only at h2
          omega
        · rw [if_neg hlt] at hif
          obtain ⟨p, -, hp⟩ := Option.map_eq_some'.mp hif
          have h2 := congrArg Prod.snd hp
          simp only at h2
          omega
      simp [hscan, hpos]

theorem subAllLines_count (ci : Bool) (r : Regex) (tmpl : List Char) :
    ∀ (ls nl : List (List Char)) (k : Nat),
      subAllLines ci r tmpl ls = some (nl, k) →
      k = ls.countP (fun l => lineMatches ⟨r, ci⟩ l)
  | [], nl, k, h => by
    simp only [subAllLines, Option.some_inj, Prod.mk.injEq] at h
    simp [← h.2]
  | l :: ls, nl, k, h => by
    rw [subAllLines] at h
    obtain ⟨p, hp, hrest⟩ := Option.bind_eq_some.mp h
    obtain ⟨q, hq, hcons⟩ := Option.map_eq_some'.mp hrest
    have h2 := congrArg Prod.snd hcons
    simp only at h2
    have hk : q.2 = ls.countP (fun l => lineMatches ⟨r, ci⟩ l) :=
      subAllLines_count ci r tmpl ls q.1 q.2 hq
    have hpos : 0 < p.2 ↔ (reSearchFrom ci r l 0).isSome = true :=
      subnGo_count_pos ci r tmpl l (l.length + 2) 0 p.1 p.2 hp
    rw [← h2, hk, List.countP_cons]
    by_cases hm : lineMatches ⟨r, ci⟩ l = true
    · have hpp : 0 < p.2 := hpos.mpr hm
      simp [hm, hpp]
    · have hpp : ¬ 0 < p.2 := fun hc => hm (hpos.mp hc)
      simp [hm, hpp]

theorem replace_file_ok_some (ts : TS) (cp : CPat) (rep path : String)
    (backup : Bool) (pid : Nat) (st : St) (fr : FileReplacement)
    (st2 : St) (tr : List Ev)
    (h : replace_file ts cp rep path backup pid st = (.ok (some fr), st2, tr)) :
    fr.path = path ∧
    ∃ content nl,
      fsGet st.fs path = some content ∧
      Ev.readF path (some content) ∈ tr ∧
      subAllLines cp.ignorecase cp.re
        (if ts.use_regex then rep.data else doubleBS rep.data)
        (splitLines content.data) = some (nl, fr.count) := by
  rw [replace_file] at h
  cases hget : fsGet st.fs path with
  | none =>
    rw [hget] at h
    exact absurd (congrArg (fun t => t.1) h) (by simp)
  | some content =>
    rw [hget] at h
    dsimp only at h
    cases hsub : subAllLines cp.ignorecase cp.re
        (if ts.use_regex = true then rep.data else doubleBS rep.data)
        (splitLines content.data) with
    | none =>
      rw [hsub] at h
      exact absurd (congrArg (fun t => t.1) h) (by simp)
    | some pr =>
      obtain ⟨nl, k⟩ := pr
      rw [hsub] at h
      dsimp only at h
      by_cases hk : k = 0
      · rw [if_pos hk] at h
        exact absurd (congrArg (fun t => t.1) h) (by simp)
      · rw [if_neg hk] at h
        by_cases hb : backup = true
        · rw [if_pos hb] at h
          split at h
          · exact absurd (congrArg (fun t => t.1) h) (by simp)
          · split at h
            · have h1 := congrArg (fun t => t.1) h
              have h3 := congrArg (fun t => t.2.2) h
              simp only [Except.ok.injEq, Option.some_inj] at h1
              simp only at h3
              refine ⟨by rw [← h1], content, nl, rfl, ?_, ?_⟩
              · rw [← h3]; exact List.mem_cons_self _ _
              · rw [← h1, hsub]
            · split at h
              · split at h
                · exact absurd (congrArg (fun t => t.1) h) (by simp)
                · exact absurd (congrArg (fun t => t.1) h) (by simp)
              · exact absurd (congrArg (fun t => t.1) h) (by simp)
        · rw [if_neg hb] at h
          split at h
          · have h1 := congrArg (fun t => t.1) h
            have h3 := congrArg (fun t => t.2.2) h
            simp only [Except.ok.injEq, Option.some_inj] at h1
            simp only at h3
            refine ⟨by rw [← h1], content, nl, rfl, ?_, ?_⟩
            · rw [← h3]; exact List.mem_cons_self _ _
            · rw [← h1, hsub]
          · exact absurd (congrArg (fun t => t.1) h) (by simp)

theorem replaceGo_ok (ts : TS) (cp : CPat) (rep : String) (backup : Bool)
    (pid : Nat) :
    ∀ (files : List String) (st : St) (rs : List FileReplacement) (st2 : St)
      (tr : List Ev),
      replaceGo ts cp rep backup pid files st = .ok (rs, st2, tr) →
      (rs.map (fun x => x.path)).Sublist files ∧
      ∀ fr ∈ rs, ∃ content nl,
        Ev.readF fr.path (some content) ∈ tr ∧
        subAllLines cp.ignorecase cp.re
          (if ts.use_regex then rep.data else doubleBS rep.data)
          (splitLines content.data) = some (nl, fr.count)
  | [], st, rs, st2, tr, h => by
    simp only [replaceGo, Except.ok.injEq, Prod.mk.injEq] at h
    obtain ⟨rfl, -, rfl⟩ := h
    exact ⟨List.nil_sublist [], by simp⟩
  | f :: rest, st, rs, st2, tr, h => by
    rw [replaceGo] at h
    cases hrf : replace_file ts cp rep f backup pid st with
    | mk res strest =>
      obtain ⟨st1, tr1⟩ := strest
      rw [hrf] at h
      cases res with
      | error e => simp at h
      | ok resv =>
        dsimp only at h
        cases hgo : replaceGo ts cp rep backup pid rest st1 with
        | error e => rw [hgo] at h; simp at h
        | ok triple =>
          obtain ⟨rs2, st3, tr2⟩ := triple
          rw [hgo] at h
          simp only [Except.ok.injEq, Prod.mk.injEq] at h
          obtain ⟨hrs, -, htr⟩ := h
          obtain ⟨hsub, hmem⟩ :=
            replaceGo_ok ts cp rep backup pid rest st1 rs2 st3 tr2 hgo
          cases resv with
          | none =>
            subst hrs
            subst htr
            refine ⟨hsub.cons f, ?_⟩
            intro fr hfr
            obtain ⟨content, nl, hin, hcount⟩ := hmem fr hfr
            exact ⟨content, nl, List.mem_append_right _ hin, hcount⟩
          | some r =>
            subst hrs
            subst htr
            obtain ⟨hpath, content, nl, -, hin, hcount⟩ :=
              replace_file_ok_some ts cp rep f backup pid st r st1 tr1 hrf
            constructor
            · simp only [List.map_cons, hpath]
              exact hsub.cons₂ f
            · intro fr hfr
              rcases List.mem_cons.mp hfr with rfl | hfr2
              · exact ⟨content, nl, by
                  rw [hpath]; exact List.mem_append_left _ hin, hcount⟩
              · obtain ⟨content2, nl2, hin2, hcount2⟩ := hmem fr hfr2
                exact ⟨content2, nl2, List.mem_append_right _ hin2, hcount2⟩

/-- C2: `search` and `replace` process the files in exactly the order the
caller supplies (the result lists follow that order), and every returned
count is the number of lines of the file containing at least one match of
the pattern — one per line, however many occurrences the line holds. -/
theorem c2_file_order_and_line_counts (ts : TS) (p r : String)
    (files : List String) (fs : List (String × String)) (st : St)
    (backup : Bool) (pid : Nat) (cp : CPat)
    (hc : compile_pattern ts p = some cp) :
    (search ts p files fs = some (files.filterMap (search_file cp fs)) ∧
      ∀ m ∈ files.filterMap (search_file cp fs),
        ∃ content, fsGet fs m.path = some content ∧
          m.count = (splitLines content.data).countP
            (fun l => lineMatches cp l)) ∧
    (∀ rs st2 tr, replace ts p r files backup pid st = .ok (rs, st2, tr) →
      (rs.map (fun x => x.path)).Sublist files ∧
      ∀ fr ∈ rs, ∃ content nl,
        Ev.readF fr.path (some content) ∈ tr ∧
        subAllLines cp.ignorecase cp.re
          (if ts.use_regex then r.data else doubleBS r.data)
          (splitLines content.data) = some (nl, fr.count) ∧
        fr.count = (splitLines content.data).countP
          (fun l => lineMatches cp l)) := by
  constructor
  · constructor
    · rw [search, hc]
      simp [searchGo_eq_filterMap]
    · intro m hm
      obtain ⟨f, -, hsf⟩ := List.mem_filterMap.mp hm
      obtain ⟨hmp, content, hget, hcount, -⟩ :=
        search_file_shape cp fs f m hsf
      exact ⟨content, by rw [hmp]; exact hget, hcount⟩
  · intro rs st2 tr h
    rw [replace, hc] at h
    obtain ⟨hsub, hmem⟩ :=
      replaceGo_ok ts cp r backup pid files st rs st2 tr h
    refine ⟨hsub, ?_⟩
    intro fr hfr
    obtain ⟨content, nl, hin, hcount⟩ := hmem fr hfr
    refine ⟨content, nl, hin, hcount, ?_⟩
    have := subAllLines_count cp.ignorecase cp.re
      (if ts.use_regex then r.data else doubleBS r.data)
      (splitLines content.data) nl fr.count hcount
    simpa using this

/-- Witness for C2: the pattern `foo` on a one-line file whose line holds
three occurrences; the returned count is 1 (one matching line), not 3. -/
theorem c2_witness :
    compile_pattern ⟨false, false⟩ "foo" =
      some ⟨litSeq "foo".data, true⟩ ∧
    ((search ⟨false, false⟩ "foo" ["f"] [("f", "foo foo foo\n")] =
        some (["f"].filterMap
          (search_file ⟨litSeq "foo".data, true⟩ [("f", "foo foo foo\n")])) ∧
      ∀ m ∈ ["f"].filterMap
          (search_file ⟨litSeq "foo".data, true⟩ [("f", "foo foo foo\n")]),
        ∃ content, fsGet [("f", "foo foo foo\n")] m.path = some content ∧
          m.count = (splitLines content.data).countP
            (fun l => lineMatches ⟨litSeq "foo".data, true⟩ l)) ∧
    (∀ rs st2 tr,
      replace ⟨false, false⟩ "foo" "X" ["f"] true 7
          ⟨[("f", "foo foo foo\n")], []⟩ = .ok (rs, st2, tr) →
      (rs.map (fun x => x.path)).Sublist ["f"] ∧
      ∀ fr ∈ rs, ∃ content nl,
        Ev.readF fr.path (some content) ∈ tr ∧
        subAllLines true (litSeq "foo".data)
          (if (TS.mk false false).use_regex then "X".data
           else doubleBS "X".data)
          (splitLines content.data) = some (nl, fr.count) ∧
        fr.count = (splitLines content.data).countP
          (fun l => lineMatches ⟨litSeq "foo".data, true⟩ l))) :=
  ⟨rfl, c2_file_order_and_line_counts ⟨false, false⟩ "foo" "X" ["f"]
    [("f", "foo foo foo\n")] ⟨[("f", "foo foo foo\n")], []⟩ true 7
    ⟨litSeq "foo".data, true⟩ rfl⟩

/-! ### Helper lemmas for the replace claims -/

theorem splitLinesAux_flatten : ∀ (cs acc : List Char),
    (splitLinesAux cs acc).flatten = acc.reverse ++ cs
  | [], acc => by
    rw [splitLinesAux]
    by_cases ha : acc.isEmpty = true
    · rw [if_pos ha]
      simp [List.isEmpty_iff.mp ha]
    · rw [if_neg ha]
      simp
  | c :: cs, acc => by
    rw [splitLinesAux]
    by_cases hc : c = '\n'
    · rw [if_pos hc, List.flatten_cons, splitLinesAux_flatten cs []]
      simp [hc]
    · rw [if_neg hc, splitLinesAux_flatten cs (c :: acc)]
      simp

theorem joinLines_splitLines (s : String) :
    joinLines (splitLines s.data) = s := by
  rw [joinLines, splitLines, splitLinesAux_flatten s.data []]
  rfl

theorem fsGet_fsSet_same : ∀ (fs : List (String × String)) (p c : String),
    fsGet (fsSet fs p c) p = some c
  | [], p, c => by simp [fsGet, fsSet, List.find?]
  | e :: rest, p, c => by
    rw [fsSet]
    by_cases he : (e.1 == p) = true
    · rw [if_pos he]
      simp [fsGet, List.find?]
    · rw [if_neg he]
      have he2 : (e.1 == p) = false := by simpa using he
      simp only [fsGet, List.find?, he2]
      exact fsGet_fsSet_same rest p c

theorem fsGet_fsSet_other : ∀ (fs : List (String × String)) (p c p2 : String),
    p2 ≠ p → fsGet (fsSet fs p c) p2 = fsGet fs p2
  | [], p, c, p2, h => by
    have hb : (p == p2) = false := by simpa using fun he => h he.symm
    simp [fsGet, fsSet, List.find?, hb]
  | e :: rest, p, c, p2, h => by
    rw [fsSet]
    by_cases he : (e.1 == p) = true
    · rw [if_pos he]
      have hep : e.1 = p := by simpa using he
      have h1 : (p == p2) = false := by simpa using fun hx => h hx.symm
      have h2 : (e.1 == p2) = false := by rw [hep]; exact h1
      simp [fsGet, List.find?, h1, h2]
    · rw [if_neg he]
      simp only [fsGet, List.find?]
      cases hx : (e.1 == p2)
      · simpa [fsGet] using fsGet_fsSet_other rest p c p2 h
      · rfl

theorem backup_path_ne (path : String) (pid : Nat) :
    path ++ "." ++ toString pid ≠ path := by
  intro h
  have hlen := congrArg String.length h
  rw [String.length_append, String.length_append] at hlen
  have hdot : ("." : String).length = 1 := rfl
  omega

theorem subnLine_nomatch (ci : Bool) (r : Regex) (tmpl l : List Char)
    (h : reSearchFrom ci r l 0 = none) :
    subnLine ci r tmpl l = some (l, 0) := by
  show subnGo ci r tmpl l (l.length + 1 + 1) 0 = some (l, 0)
  rw [subnGo, h]
  simp

theorem subAllLines_nomatch (ci : Bool) (r : Regex) (tmpl : List Char) :
    ∀ ls : List (List Char), (∀ l ∈ ls, reSearchFrom ci r l 0 = none) →
    subAllLines ci r tmpl ls = some (ls, 0)
  | [], _ => rfl
  | l :: ls, h => by
    rw [subAllLines, subnLine_nomatch ci r tmpl l (h l (by simp)),
      subAllLines_nomatch ci r tmpl ls (fun x hx => h x (by simp [hx]))]
    simp

/-! ### C9: a file without matches is untouched -/

/-- C9: when no line of a readable file matches the pattern, `replace_file`
returns no result, leaves the world state untouched, and its trace holds
the single read — the file is never opened for writing and no backup is
created. -/
theorem c9_nomatch_leaves_file_untouched (ts : TS) (cp : CPat)
    (rep path : String) (backup : Bool) (pid : Nat) (st : St)
    (content : String)
    (hread : fsGet st.fs path = some content)
    (hnm : ∀ l ∈ splitLines content.data, lineMatches cp l = false) :
    replace_file ts cp rep path backup pid st =
      (.ok none, st, [.readF path (some content)]) := by
  have hsub : subAllLines cp.ignorecase cp.re
      (if ts.use_regex then rep.data else doubleBS rep.data)
      (splitLines content.data) = some (splitLines content.data, 0) := by
    refine subAllLines_nomatch _ _ _ _ (fun l hl => ?_)
    have := hnm l hl
    rw [lineMatches] at this
    exact Option.not_isSome_iff_eq_none.mp (by simp [this])
  rw [replace_file, hread]
  dsimp only
  rw [hsub]
  rfl

/-- Witness for C9: replacing `zzz` in a file that does not contain it. -/
theorem c9_witness :
    fsGet [("f", "hello\n")] "f" = some "hello\n" ∧
    (∀ l ∈ splitLines "hello\n".data,
      lineMatches ⟨litSeq "zzz".data, true⟩ l = false) ∧
    replace_file ⟨false, false⟩ ⟨litSeq "zzz".data, true⟩ "x" "f" true 9
        ⟨[("f", "hello\n")], []⟩ =
      (.ok none, ⟨[("f", "hello\n")], []⟩, [.readF "f" (some "hello\n")]) :=
  ⟨rfl, by decide,
    c9_nomatch_leaves_file_untouched ⟨false, false⟩ ⟨litSeq "zzz".data, true⟩
      "x" "f" true 9 ⟨[("f", "hello\n")], []⟩ "hello\n" rfl (by decide)⟩

/-! ### C3: backup written, byte-identical, before the overwrite -/

/-- C3: when a readable file has `k ≠ 0` changed lines, backups are
requested and writes succeed, `replace_file` first writes a backup whose
path is the file name suffixed with `.` plus the process id and whose
content is byte-identical to the complete pre-replacement content, and
only then overwrites the original: the trace lists the backup write
strictly before the overwrite, and the backup file holds the original
content afterwards. -/
theorem c3_backup_before_overwrite (ts : TS) (cp : CPat)
    (rep path : String) (pid : Nat) (fs : List (String × String))
    (content : String) (nl : List (List Char)) (k : Nat)
    (hread : fsGet fs path = some content)
    (hsub : subAllLines cp.ignorecase cp.re
      (if ts.use_regex then rep.data else doubleBS rep.data)
      (splitLines content.data) = some (nl, k))
    (hk : k ≠ 0) :
    replace_file ts cp rep path true pid ⟨fs, []⟩ =
      (.ok (some ⟨path, k, some (path ++ "." ++ toString pid)⟩),
        ⟨fsSet (fsSet fs (path ++ "." ++ toString pid) content) path
          (joinLines nl), []⟩,
        [.readF path (some content),
         .writeF (path ++ "." ++ toString pid) content true,
         .writeF path (joinLines nl) true]) ∧
    fsGet (fsSet (fsSet fs (path ++ "." ++ toString pid) content) path
        (joinLines nl)) (path ++ "." ++ toString pid) = some content := by
  have hjoin := joinLines_splitLines content
  constructor
  · simp only [replace_file, hread, hsub, tryWrite, hjoin, hk]
    simp
  · rw [fsGet_fsSet_other _ path (joinLines nl) _ (backup_path_ne path pid),
      fsGet_fsSet_same]

/-- Witness for C3: replacing `old` by `new` in a one-line file, with
backup. -/
theorem c3_witness :
    fsGet [("f", "old\n")] "f" = some "old\n" ∧
    subAllLines true (litSeq "old".data)
      (if (TS.mk false false).use_regex then "new".data
       else doubleBS "new".data)
      (splitLines "old\n".data) = some (["new\n".data], 1) ∧
    (1 : Nat) ≠ 0 ∧
    (replace_file ⟨false, false⟩ ⟨litSeq "old".data, true⟩ "new" "f" true 42
        ⟨[("f", "old\n")], []⟩ =
      (.ok (some ⟨"f", 1, some ("f" ++ "." ++ toString 42)⟩),
        ⟨fsSet (fsSet [("f", "old\n")] ("f" ++ "." ++ toString 42) "old\n")
          "f" (joinLines ["new\n".data]), []⟩,
        [.readF "f" (some "old\n"),
         .writeF ("f" ++ "." ++ toString 42) "old\n" true,
         .writeF "f" (joinLines ["new\n".data]) true]) ∧
      fsGet (fsSet (fsSet [("f", "old\n")] ("f" ++ "." ++ toString 42)
          "old\n") "f" (joinLines ["new\n".data]))
        ("f" ++ "." ++ toString 42) = some "old\n") :=
  ⟨rfl, by decide, by decide,
    c3_backup_before_overwrite ⟨false, false⟩ ⟨litSeq "old".data, true⟩
      "new" "f" 42 [("f", "old\n")] "old\n" ["new\n".data] 1 rfl (by decide)
      (by decide)⟩

/-! ### C4: failed overwrite after a backup restores the original -/

/-- C4: with backups on, when the backup write succeeds, the overwrite of
the target fails and the restore write succeeds, `replace_file` rewrites
the target from the in-memory original lines — the final store holds the
pre-replacement content at the target path — and the backup file on disk
is never read back (the trace holds no read of the backup path). -/
theorem c4_restore_after_failed_write (ts : TS) (cp : CPat)
    (rep path : String) (pid : Nat) (fs : List (String × String))
    (content : String) (nl : List (List Char)) (k : Nat)
    (hread : fsGet fs path = some content)
    (hsub : subAllLines cp.ignorecase cp.re
      (if ts.use_regex then rep.data else doubleBS rep.data)
      (splitLines content.data) = some (nl, k))
    (hk : k ≠ 0) :
    replace_file ts cp rep path true pid ⟨fs, [true, false, true]⟩ =
      (.ok none,
        ⟨fsSet (fsSet fs (path ++ "." ++ toString pid) content) path content,
          []⟩,
        [.readF path (some content),
         .writeF (path ++ "." ++ toString pid) content true,
         .writeF path (joinLines nl) false,
         .writeF path content true]) ∧
    fsGet (fsSet (fsSet fs (path ++ "." ++ toString pid) content) path
        content) path = some content ∧
    (∀ o : Option String,
      Ev.readF (path ++ "." ++ toString pid) o ∉
        [Ev.readF path (some content),
         Ev.writeF (path ++ "." ++ toString pid) content true,
         Ev.writeF path (joinLines nl) false,
         Ev.writeF path content true]) := by
  have hjoin := joinLines_splitLines content
  refine ⟨?_, fsGet_fsSet_same _ _ _, ?_⟩
  · simp only [replace_file, hread, hsub, tryWrite, hjoin, hk,
      fsGet_fsSet_same]
    simp
    simp [fsGet_fsSet_same]
  · intro o hmem
    have hne := backup_path_ne path pid
    simp only [List.mem_cons, List.mem_singleton] at hmem
    rcases hmem with h | h | h | h | h
    · injection h with h1 h2
      exact hne h1
    · exact Ev.noConfusion h
    · exact Ev.noConfusion h
    · exact Ev.noConfusion h
    · exact absurd h (List.not_mem_nil _)

/-- Witness for C4: the overwrite of `f` fails after the backup was
written; `f` ends with its original content. -/
theorem c4_witness :
    fsGet [("f", "old\n")] "f" = some "old\n" ∧
    subAllLines true (litSeq "old".data)
      (if (TS.mk false false).use_regex then "new".data
       else doubleBS "new".data)
      (splitLines "old\n".data) = some (["new\n".data], 1) ∧
    (1 : Nat) ≠ 0 ∧
    (replace_file ⟨false, false⟩ ⟨litSeq "old".data, true⟩ "new" "f" true 42
        ⟨[("f", "old\n")], [true, false, true]⟩ =
      (.ok none,
        ⟨fsSet (fsSet [("f", "old\n")] ("f" ++ "." ++ toString 42) "old\n")
          "f" "old\n", []⟩,
        [.readF "f" (some "old\n"),
         .writeF ("f" ++ "." ++ toString 42) "old\n" true,
         .writeF "f" (joinLines ["new\n".data]) false,
         .writeF "f" "old\n" true]) ∧
      fsGet (fsSet (fsSet [("f", "old\n")] ("f" ++ "." ++ toString 42)
          "old\n") "f" "old\n") "f" = some "old\n" ∧
      (∀ o : Option String,
        Ev.readF ("f" ++ "." ++ toString 42) o ∉
          [Ev.readF "f" (some "old\n"),
           Ev.writeF ("f" ++ "." ++ toString 42) "old\n" true,
           Ev.writeF "f" (joinLines ["new\n".data]) false,
           Ev.writeF "f" "old\n" true])) :=
  ⟨rfl, by decide, by decide,
    c4_restore_after_failed_write ⟨false, false⟩ ⟨litSeq "old".data, true⟩
      "new" "f" 42 [("f", "old\n")] "old\n" ["new\n".data] 1 rfl (by decide)
      (by decide)⟩

/-! ### C10: a failed backup write aborts before the target is touched -/

/-- C10: with backups on, when the backup write itself fails,
`replace_file` returns no result, the store is unchanged (the target path
in particular), and the trace holds no write attempt on the target path at
all — the target is never opened for writing. -/
theorem c10_backup_failure_aborts_edit (ts : TS) (cp : CPat)
    (rep path : String) (pid : Nat) (fs : List (String × String))
    (content : String) (nl : List (List Char)) (k : Nat)
    (hread : fsGet fs path = some content)
    (hsub : subAllLines cp.ignorecase cp.re
      (if ts.use_regex then rep.data else doubleBS rep.data)
      (splitLines content.data) = some (nl, k))
    (hk : k ≠ 0) :
    replace_file ts cp rep path true pid ⟨fs, [false]⟩ =
      (.ok none, ⟨fs, []⟩,
        [.readF path (some content),
         .writeF (path ++ "." ++ toString pid) content false]) ∧
    (∀ (c2 : String) (ok : Bool),
      Ev.writeF path c2 ok ∉
        [Ev.readF path (some content),
         Ev.writeF (path ++ "." ++ toString pid) content false]) := by
  have hjoin := joinLines_splitLines content
  constructor
  · simp only [replace_file, hread, hsub, tryWrite, hjoin, hk]
    simp
  · intro c2 ok hmem
    have hne := backup_path_ne path pid
    simp only [List.mem_cons, List.mem_singleton] at hmem
    rcases hmem with h | h | h
    · exact Ev.noConfusion h
    · injection h with h1 h2 h3
      exact hne h1.symm
    · exact absurd h (List.not_mem_nil _)

/-- Witness for C10: the backup write for `f` fails; `f` keeps its
content and sees no write attempt. -/
theorem c10_witness :
    fsGet [("f", "old\n")] "f" = some "old\n" ∧
    subAllLines true (litSeq "old".data)
      (if (TS.mk false false).use_regex then "new".data
       else doubleBS "new".data)
      (splitLines "old\n".data) = some (["new\n".data], 1) ∧
    (1 : Nat) ≠ 0 ∧
    (replace_file ⟨false, false⟩ ⟨litSeq "old".data, true⟩ "new" "f" true 42
        ⟨[("f", "old\n")], [false]⟩ =
      (.ok none, ⟨[("f", "old\n")], []⟩,
        [.readF "f" (some "old\n"),
         .writeF ("f" ++ "." ++ toString 42) "old\n" false]) ∧
      (∀ (c2 : String) (ok : Bool),
        Ev.writeF "f" c2 ok ∉
          [Ev.readF "f" (some "old\n"),
           Ev.writeF ("f" ++ "." ++ toString 42) "old\n" false])) :=
  ⟨rfl, by decide, by decide,
    c10_backup_failure_aborts_edit ⟨false, false⟩ ⟨litSeq "old".data, true⟩
      "new" "f" 42 [("f", "old\n")] "old\n" ["new\n".data] 1 rfl (by decide)
      (by decide)⟩

/-! ### C6: a failed overwrite without backup is absorbed silently -/

/-- Counterexample to C6 as stated: a replace whose only write fails (no
backup requested) returns exactly the same caller-visible outcome as a
replace that simply found no match — `.ok` with an empty result list — so
the I/O failure is not distinguishable from the no-match case at the API.
-/
theorem c6_counterexample :
    (replace ⟨false, false⟩ "a" "b" ["f"] false 1
        ⟨[("f", "a\n")], [false]⟩).map (fun t => t.1) =
      .ok ([] : List FileReplacement) ∧
    (replace ⟨false, false⟩ "z" "b" ["f"] false 1
        ⟨[("f", "a\n")], []⟩).map (fun t => t.1) =
      .ok ([] : List FileReplacement) := by
  constructor <;> rfl

/-- C6 as amended: with no backup requested, a failed overwrite makes
`replace_file` return no result for the file — silently absorbed, the same
`none` the no-match case yields, not a distinguishable I/O failure — and
no recovery write is attempted (the trace ends with the single failed
write). -/
theorem c6_write_failure_without_backup_is_silent (ts : TS) (cp : CPat)
    (rep path : String) (pid : Nat) (fs : List (String × String))
    (content : String) (nl : List (List Char)) (k : Nat)
    (hread : fsGet fs path = some content)
    (hsub : subAllLines cp.ignorecase cp.re
      (if ts.use_regex then rep.data else doubleBS rep.data)
      (splitLines content.data) = some (nl, k))
    (hk : k ≠ 0) :
    replace_file ts cp rep path false pid ⟨fs, [false]⟩ =
      (.ok none, ⟨fs, []⟩,
        [.readF path (some content),
         .writeF path (joinLines nl) false]) := by
  simp only [replace_file, hread, hsub, tryWrite, hk]
  simp

/-- Witness for the amended C6: the single write for `f` fails; the result
is `none`, like a no-match. -/
theorem c6_witness :
    fsGet [("f", "old\n")] "f" = some "old\n" ∧
    subAllLines true (litSeq "old".data)
      (if (TS.mk false false).use_regex then "new".data
       else doubleBS "new".data)
      (splitLines "old\n".data) = some (["new\n".data], 1) ∧
    (1 : Nat) ≠ 0 ∧
    replace_file ⟨false, false⟩ ⟨litSeq "old".data, true⟩ "new" "f" false 42
        ⟨[("f", "old\n")], [false]⟩ =
      (.ok none, ⟨[("f", "old\n")], []⟩,
        [.readF "f" (some "old\n"),
         .writeF "f" (joinLines ["new\n".data]) false]) :=
  ⟨rfl, by decide, by decide,
    c6_write_failure_without_backup_is_silent ⟨false, false⟩
      ⟨litSeq "old".data, true⟩ "new" "f" 42 [("f", "old\n")] "old\n"
      ["new\n".data] 1 rfl (by decide) (by decide)⟩

/-! ### C5: literal-mode replacement text is inserted verbatim -/

theorem expandGo_doubleBS (s : List Char) (caps : Caps) :
    ∀ (rep : List Char) (fuel : Nat), (doubleBS rep).length < fuel →
      expandGo s caps fuel (doubleBS rep) = some rep
  | [], fuel, h => by
    obtain ⟨f, rfl⟩ : ∃ f, fuel = f + 1 := ⟨fuel - 1, by omega⟩
    rfl
  | c :: rest, fuel, h => by
    by_cases hc : c = '\\'
    · subst hc
      rw [doubleBS, if_pos rfl] at h ⊢
      obtain ⟨f, rfl⟩ : ∃ f, fuel = f + 1 := ⟨fuel - 1, by omega⟩
      have hf : (doubleBS rest).length < f := by
        simp only [List.length_cons] at h
        omega
      simp [expandGo, expandGo_doubleBS s caps rest f hf]
    · rw [doubleBS, if_neg hc] at h ⊢
      obtain ⟨f, rfl⟩ : ∃ f, fuel = f + 1 := ⟨fuel - 1, by omega⟩
      have hf : (doubleBS rest).length < f := by
        simp only [List.length_cons] at h
        omega
      simp [expandGo, hc, expandGo_doubleBS s caps rest f hf]

theorem expandT_doubleBS (s : List Char) (caps : Caps) (rep : List Char) :
    expandT s caps (doubleBS rep) = some rep :=
  expandGo_doubleBS s caps rep ((doubleBS rep).length + 1) (by omega)

theorem subnGo_literal (ci : Bool) (r : Regex) (rep s : List Char) :
    ∀ (k pos : Nat),
      subnGo ci r (doubleBS rep) s k pos = subnLitGo ci r rep s k pos
  | 0, _ => rfl
  | k + 1, pos => by
    rw [subnGo, subnLitGo]
    cases hscan : reSearchFrom ci r s pos with
    | none => rfl
    | some sec =>
      obtain ⟨st, en, caps⟩ := sec
      dsimp only
      rw [expandT_doubleBS s caps rep]
      show (if st < en then _ else _) = _
      by_cases hlt : st < en
      · rw [if_pos hlt, if_pos hlt, subnGo_literal ci r rep s k en]
      · rw [if_neg hlt, if_neg hlt, subnGo_literal ci r rep s k (st + 1)]

/-- C5: in literal mode the backslashes of the caller's replacement are
doubled, so template expansion returns the replacement verbatim and the
substitution loop coincides with literal insertion of the replacement
(sequences such as a backslash followed by `n` or `1` are never
interpreted as escapes or group references); in regex mode numbered group
references are honored: replacing `(hello) (world)` by `\2 \1` in
`"hello world\n"` yields `"world hello\n"`. -/
theorem c5_literal_replacement_verbatim_and_regex_backrefs :
    (∀ (s : List Char) (caps : Caps) (rep : List Char),
      expandT s caps (doubleBS rep) = some rep) ∧
    (∀ (ci : Bool) (r : Regex) (rep s : List Char) (k pos : Nat),
      subnGo ci r (doubleBS rep) s k pos = subnLitGo ci r rep s k pos) ∧
    (Except.map (fun t => fsGet t.2.1.fs "f")
        (replace ⟨false, true⟩ "(hello) (world)" "\\2 \\1" ["f"] false 1
          ⟨[("f", "hello world\n")], []⟩) = .ok (some "world hello\n")) :=
  ⟨expandT_doubleBS, subnGo_literal, by rfl⟩

/-! ### C7: file collection -/

theorem fsGet_isSome_iff_mem (fs : List (String × String)) (p : String) :
    (fsGet fs p).isSome = true ↔ p ∈ fs.map Prod.fst := by
  rw [fsGet]
  have hmap : ∀ o : Option (String × String),
      (Option.map (fun e => e.2) o).isSome = o.isSome := by
    intro o
    cases o <;> rfl
  rw [hmap, List.find?_isSome]
  constructor
  · rintro ⟨e, he, hp⟩
    exact List.mem_map.mpr ⟨e, he, by simpa using hp⟩
  · intro hp
    obtain ⟨e, he, rfl⟩ := List.mem_map.mp hp
    exact ⟨e, he, by simp⟩

/-- C7: `collect_tree` returns exactly the regular files under the root
(one entry per store entry, none of the directories), sorted by the
lexicographic order on path strings; `collect_files` returns exactly the
caller-given paths that are regular files, preserving the caller-given
order. -/
theorem c7_collect_tree_sorted_and_collect_files_order (w : FsWorld)
    (root : String) (paths : List String)
    (hdisj : ∀ p ∈ w.dirs, isRegularFile w p = false) :
    (collect_tree w root).Perm
        ((w.files.map Prod.fst).filter
          (fun p => (root ++ "/").isPrefixOf p)) ∧
    List.Sorted (fun a b : String => a ≤ b) (collect_tree w root) ∧
    (∀ p, p ∈ collect_tree w root ↔
      (isRegularFile w p = true ∧ (root ++ "/").isPrefixOf p = true)) ∧
    (∀ p, p ∈ collect_files w paths ↔
      (p ∈ paths ∧ isRegularFile w p = true)) ∧
    (collect_files w paths).Sublist paths := by
  have hfilter : (rglob w root).filter (isRegularFile w) =
      (w.files.map Prod.fst).filter
        (fun p => (root ++ "/").isPrefixOf p) := by
    rw [rglob, List.filter_append, List.filter_append, List.filter_filter,
      List.filter_filter]
    have hdirs : (w.dirs.filter
        (fun p => isRegularFile w p && (root ++ "/").isPrefixOf p)) = [] := by
      rw [List.filter_eq_nil_iff]
      intro p hp
      simp [hdisj p hp]
    have hfiles : ((w.files.map Prod.fst).filter
        (fun p => isRegularFile w p && (root ++ "/").isPrefixOf p)) =
        (w.files.map Prod.fst).filter
          (fun p => (root ++ "/").isPrefixOf p) := by
      apply List.filter_congr
      intro p hp
      have hreg : isRegularFile w p = true := by
        rw [isRegularFile, fsGet_isSome_iff_mem]
        exact hp
      simp [hreg]
    rw [hdirs, hfiles, List.append_nil]
  have hperm : (collect_tree w root).Perm
      ((w.files.map Prod.fst).filter
        (fun p => (root ++ "/").isPrefixOf p)) := by
    rw [collect_tree, hfilter]
    exact List.perm_insertionSort _ _
  refine ⟨hperm, ?_, ?_, ?_, ?_⟩
  · exact List.sorted_insertionSort _ _
  · intro p
    rw [hperm.mem_iff, List.mem_filter]
    constructor
    · rintro ⟨hm, hu⟩
      exact ⟨by rw [isRegularFile, fsGet_isSome_iff_mem]; exact hm, hu⟩
    · rintro ⟨hf, hu⟩
      exact ⟨by rw [isRegularFile, fsGet_isSome_iff_mem] at hf; exact hf, hu⟩
  · intro p
    rw [collect_files, List.mem_filter]
  · exact List.filter_sublist _

/-- Witness for C7: a world with two files and a directory, the directory
not a regular file; the tree collection is sorted and the explicit list is
filtered in order. -/
theorem c7_witness :
    (∀ p ∈ (FsWorld.mk [("a/x.txt", "1"), ("a/b/y.txt", "2")]
        ["a", "a/b"]).dirs,
      isRegularFile ⟨[("a/x.txt", "1"), ("a/b/y.txt", "2")], ["a", "a/b"]⟩
        p = false) ∧
    ((collect_tree ⟨[("a/x.txt", "1"), ("a/b/y.txt", "2")], ["a", "a/b"]⟩
        "a").Perm
      (([("a/x.txt", "1"), ("a/b/y.txt", "2")].map Prod.fst).filter
        (fun p => ("a" ++ "/").isPrefixOf p)) ∧
    List.Sorted (fun a b : String => a ≤ b)
      (collect_tree ⟨[("a/x.txt", "1"), ("a/b/y.txt", "2")], ["a", "a/b"]⟩
        "a") ∧
    (∀ p, p ∈ collect_tree
        ⟨[("a/x.txt", "1"), ("a/b/y.txt", "2")], ["a", "a/b"]⟩ "a" ↔
      (isRegularFile ⟨[("a/x.txt", "1"), ("a/b/y.txt", "2")], ["a", "a/b"]⟩
          p = true ∧ ("a" ++ "/").isPrefixOf p = true)) ∧
    (∀ p, p ∈ collect_files
        ⟨[("a/x.txt", "1"), ("a/b/y.txt", "2")], ["a", "a/b"]⟩
        ["a/x.txt", "missing"] ↔
      (p ∈ ["a/x.txt", "missing"] ∧
        isRegularFile ⟨[("a/x.txt", "1"), ("a/b/y.txt", "2")], ["a", "a/b"]⟩
          p = true)) ∧
    (collect_files ⟨[("a/x.txt", "1"), ("a/b/y.txt", "2")], ["a", "a/b"]⟩
        ["a/x.txt", "missing"]).Sublist ["a/x.txt", "missing"]) :=
  ⟨by decide,
    c7_collect_tree_sorted_and_collect_files_order
      ⟨[("a/x.txt", "1"), ("a/b/y.txt", "2")], ["a", "a/b"]⟩ "a"
      ["a/x.txt", "missing"] (by decide)⟩

end TreeSedModel
